import Mathlib

/-!
Shallow embedding of the `EndpointCounter` class from
`express-endpoint-counter` (src/index.ts).

The store `Map<string, EndpointStats>` is modelled as an association list
that preserves insertion order (JS `Map` iteration order): `get` finds the
first binding, `set` replaces an existing binding in place or appends a new
one at the end, `delete` removes the first binding with the key.

JS numbers used for durations are modelled as exact rationals; `Date`
timestamps are modelled as natural numbers (milliseconds), with the current
time `now` passed explicitly to each operation.  `minDuration` starts at
`Infinity`, modelled as the top element of `WithTop ℚ`.
-/

namespace EndpointCounter

/-- `EndpointStats` record from src/index.ts. -/
structure EndpointStats where
  count : Nat
  totalDuration : ℚ
  averageDuration : ℚ
  minDuration : WithTop ℚ
  maxDuration : ℚ
  lastAccessedAt : Nat
  method : String
  path : String
deriving DecidableEq

/-- The private `stats : Map<string, EndpointStats>` field, as an
insertion-ordered association list. -/
abbrev Store := List (String × EndpointStats)

/-- `Map.get`: first binding for the key, if any. -/
def mapGet (k : String) (s : Store) : Option EndpointStats :=
  (s.find? (fun kv => kv.1 == k)).map Prod.snd

/-- `Map.set`: replace an existing binding in place, else append at the end. -/
def mapSet (k : String) (v : EndpointStats) : Store → Store
  | [] => [(k, v)]
  | kv :: rest => if kv.1 == k then (k, v) :: rest else kv :: mapSet k v rest

/-- `Map.delete`: remove the (first) binding with the key. -/
def mapDelete (k : String) (s : Store) : Store :=
  s.eraseP (fun kv => kv.1 == k)

/-- One step of the LRU scan loop in `cleanupIfNeeded`: the accumulator is
the pair `(lruKey, lruTime)`, updated when an entry's `lastAccessedAt` is
strictly older than the current `lruTime`. -/
def lruScanStep (acc : Option String × Nat) (kv : String × EndpointStats) :
    Option String × Nat :=
  if kv.2.lastAccessedAt < acc.2 then (some kv.1, kv.2.lastAccessedAt) else acc

/-- `cleanupIfNeeded` from src/index.ts: when the store has reached
`maxEndpoints`, scan for the entry with `lastAccessedAt` strictly older
than every entry seen so far (starting from `lruTime = new Date()`, i.e.
`now`), and delete it if one was found.  The deletion is guarded by
`if (lruKey)`, which is JS truthiness: both `null` (here `none`) and the
empty string are falsy, so when the scan's winner is the empty-string key
nothing is deleted. -/
def cleanupIfNeeded (maxEndpoints now : Nat) (s : Store) : Store :=
  if maxEndpoints ≤ s.length then
    match (s.foldl lruScanStep (none, now)).1 with
    | some k => if k = "" then s else mapDelete k s
    | none => s
  else s

/-- `incrementCount(method, pathname, duration)` from src/index.ts.
Runs `cleanupIfNeeded` first, then reads the current entry (or the default
object with `count = 0`, `minDuration = Infinity`, `maxDuration = 0`),
updates all aggregate fields, writes the entry back, and returns the pair
(new store, returned post-update count). -/
def incrementCount (maxEndpoints now : Nat) (method pathname : String)
    (duration : ℚ) (s : Store) : Store × Nat :=
  let s1 := cleanupIfNeeded maxEndpoints now s
  let cur := (mapGet pathname s1).getD
    { count := 0
      totalDuration := 0
      averageDuration := 0
      minDuration := ⊤
      maxDuration := 0
      lastAccessedAt := now
      method := method
      path := pathname }
  let updated : EndpointStats :=
    { count := cur.count + 1
      totalDuration := cur.totalDuration + duration
      averageDuration := (cur.totalDuration + duration) / ((cur.count : ℚ) + 1)
      minDuration := min cur.minDuration (duration : WithTop ℚ)
      maxDuration := max cur.maxDuration duration
      lastAccessedAt := now
      method := cur.method
      path := cur.path }
  (mapSet pathname updated s1, cur.count + 1)

/-- `getStats(endpoint?)` from src/index.ts.  The TS overloads return either
a single entry or a copy of the whole map; `if (endpoint)` is JS truthiness,
so both `undefined` (here `none`) and the empty string take the
copy-of-the-map branch. -/
def getStats (s : Store) (endpoint : Option String) :
    Sum (Option EndpointStats) Store :=
  match endpoint with
  | some e => if e = "" then Sum.inr s else Sum.inl (mapGet e s)
  | none => Sum.inr s

/-- Comparator of `getTopEndpoints`: `(a, b) => b[1].count - a[1].count`,
i.e. `a` sorts no later than `b` when `b.count ≤ a.count`. -/
def byCountDesc (a b : String × EndpointStats) : Prop :=
  b.2.count ≤ a.2.count

instance : DecidableRel byCountDesc :=
  fun a b => Nat.decLe b.2.count a.2.count

instance : IsTotal (String × EndpointStats) byCountDesc :=
  ⟨fun a b => Nat.le_total b.2.count a.2.count⟩

instance : IsTrans (String × EndpointStats) byCountDesc :=
  ⟨fun _ _ _ hab hbc => Nat.le_trans hbc hab⟩

/-- Comparator of `getSlowestEndpoints`:
`(a, b) => b[1].averageDuration - a[1].averageDuration`. -/
def byAvgDesc (a b : String × EndpointStats) : Prop :=
  b.2.averageDuration ≤ a.2.averageDuration

instance : DecidableRel byAvgDesc :=
  fun a b => inferInstanceAs (Decidable (b.2.averageDuration ≤ a.2.averageDuration))

instance : IsTotal (String × EndpointStats) byAvgDesc :=
  ⟨fun a b => le_total b.2.averageDuration a.2.averageDuration⟩

instance : IsTrans (String × EndpointStats) byAvgDesc :=
  ⟨fun _ _ _ hab hbc => le_trans hbc hab⟩

/-- `Array.prototype.slice(0, limit)`: for `limit ≥ 0` take the first
`limit` elements; a negative `limit` counts from the end
(`max(length + limit, 0)` elements are kept). -/
def jsSlice (limit : Int) (l : List α) : List α :=
  if limit < 0 then l.take ((l.length : Int) + limit).toNat
  else l.take limit.toNat

/-- `getTopEndpoints(limit)` from src/index.ts: entries sorted (stably, as
ECMAScript `Array.prototype.sort` since ES2019) descending by `count`,
then `slice(0, limit)`.  The final `.map` to `{endpoint, stats}` objects is
the identity on the pair representation. -/
def getTopEndpoints (s : Store) (limit : Int) : List (String × EndpointStats) :=
  jsSlice limit (List.insertionSort byCountDesc s)

/-- `getSlowestEndpoints(limit)` from src/index.ts. -/
def getSlowestEndpoints (s : Store) (limit : Int) :
    List (String × EndpointStats) :=
  jsSlice limit (List.insertionSort byAvgDesc s)

/-- Result shape of `getSummary()`. -/
structure SummaryStats where
  totalEndpoints : Nat
  totalRequests : Nat
  totalDuration : ℚ
  averageDuration : ℚ
  topEndpoint : Option (String × EndpointStats)
  slowestEndpoint : Option (String × EndpointStats)
deriving DecidableEq

/-- `getSummary()` from src/index.ts.  `topEndpoint`/`slowestEndpoint` are
`getTopEndpoints(1)[0]` / `getSlowestEndpoints(1)[0]`, i.e. `undefined`
(`none`) on an empty store. -/
def getSummary (s : Store) : SummaryStats :=
  let totalRequests := (s.map (fun kv => kv.2.count)).sum
  let totalDuration := (s.map (fun kv => kv.2.totalDuration)).sum
  { totalEndpoints := s.length
    totalRequests := totalRequests
    totalDuration := totalDuration
    averageDuration :=
      if 0 < totalRequests then totalDuration / (totalRequests : ℚ) else 0
    topEndpoint := (getTopEndpoints s 1).head?
    slowestEndpoint := (getSlowestEndpoints s 1).head? }

/-- `reset(endpoint?)` from src/index.ts.  `if (endpoint)` is JS truthiness:
`undefined` (`none`) and the empty string both take the `clear()` branch. -/
def reset (s : Store) (endpoint : Option String) : Store :=
  match endpoint with
  | some e => if e = "" then [] else mapDelete e s
  | none => []

/-- One observation fed to `incrementCount` (the middleware supplies
`(method, pathname, duration)`; `now` is the wall clock during the call). -/
structure Obs where
  now : Nat
  method : String
  pathname : String
  duration : ℚ
deriving DecidableEq

/-- Run a sequence of `incrementCount` calls from a given store. -/
def runFrom (maxEndpoints : Nat) (s : Store) (tr : List Obs) : Store :=
  tr.foldl
    (fun s c => (incrementCount maxEndpoints c.now c.method c.pathname c.duration s).1)
    s

/-- Run a sequence of `incrementCount` calls from the empty store. -/
def runTrace (maxEndpoints : Nat) (tr : List Obs) : Store :=
  runFrom maxEndpoints [] tr

/-- The values returned by each `incrementCount` call of a trace. -/
def recordOutputs (maxEndpoints : Nat) (s : Store) : List Obs → List Nat
  | [] => []
  | c :: rest =>
      let r := incrementCount maxEndpoints c.now c.method c.pathname c.duration s
      r.2 :: recordOutputs maxEndpoints r.1 rest

/-- The `count` currently stored for a key (0 when absent). -/
def countFor (k : String) (s : Store) : Nat :=
  match mapGet k s with
  | some e => e.count
  | none => 0

/-- Invariant carried through the update arithmetic: a stored entry has a
positive count, a stored average equal to `totalDuration / count`, a finite
`minDuration` with `minDuration * count ≤ totalDuration`, and
`totalDuration ≤ maxDuration * count`. -/
def EntryInv (e : EndpointStats) : Prop :=
  0 < e.count
  ∧ e.averageDuration = e.totalDuration / (e.count : ℚ)
  ∧ (∃ m : ℚ, e.minDuration = (m : WithTop ℚ)
      ∧ m * (e.count : ℚ) ≤ e.totalDuration)
  ∧ e.totalDuration ≤ e.maxDuration * (e.count : ℚ)

/-- Every entry of the store satisfies `EntryInv`. -/
def StoreInv (s : Store) : Prop := ∀ kv ∈ s, EntryInv kv.2

/-- Reference sequence of returned counts for a trace: each call returns
one more than the running per-key count, tracked in a ghost map. -/
def specOutputs (counts : String → Nat) : List Obs → List Nat
  | [] => []
  | c :: rest =>
      (counts c.pathname + 1) ::
        specOutputs
          (fun k => if k = c.pathname then counts c.pathname + 1 else counts k)
          rest


/-! ### Basic lemmas about the Map model -/

theorem mapGet_cons (kv : String × EndpointStats) (s : Store) (k : String) :
    mapGet k (kv :: s) = if kv.1 = k then some kv.2 else mapGet k s := by
  by_cases h : kv.1 = k
  · simp [mapGet, List.find?_cons_of_pos, h]
  · simp [mapGet, List.find?_cons_of_neg, h]

theorem mapSet_cons (kv : String × EndpointStats) (s : Store) (k : String)
    (v : EndpointStats) :
    mapSet k v (kv :: s) =
      if kv.1 = k then (k, v) :: s else kv :: mapSet k v s := by
  by_cases h : kv.1 = k <;> simp [mapSet, h]

theorem mapDelete_cons (kv : String × EndpointStats) (s : Store) (k : String) :
    mapDelete k (kv :: s) =
      if kv.1 = k then s else kv :: mapDelete k s := by
  by_cases h : kv.1 = k
  · simp [mapDelete, List.eraseP_cons_of_pos, h]
  · simp [mapDelete, List.eraseP_cons_of_neg, h]

theorem mapGet_mapSet_self (k : String) (v : EndpointStats) (s : Store) :
    mapGet k (mapSet k v s) = some v := by
  induction s with
  | nil => simp [mapGet, mapSet]
  | cons kv rest ih =>
      rw [mapSet_cons]
      by_cases h : kv.1 = k
      · simp [h, mapGet_cons]
      · rw [if_neg h, mapGet_cons, if_neg h]
        exact ih

theorem mapGet_mapSet_ne (k k' : String) (hk : k' ≠ k) (v : EndpointStats)
    (s : Store) : mapGet k' (mapSet k v s) = mapGet k' s := by
  induction s with
  | nil => simp [mapGet, mapSet, Ne.symm hk]
  | cons kv rest ih =>
      rw [mapSet_cons]
      by_cases h : kv.1 = k
      · rw [if_pos h, mapGet_cons, mapGet_cons, if_neg (Ne.symm hk), if_neg]
        rw [h]; exact Ne.symm hk
      · rw [if_neg h, mapGet_cons, mapGet_cons]
        by_cases h' : kv.1 = k'
        · simp [h']
        · rw [if_neg h', if_neg h']
          exact ih

theorem mapGet_eq_none_of_not_mem_keys (k : String) (s : Store)
    (h : k ∉ s.map Prod.fst) : mapGet k s = none := by
  induction s with
  | nil => rfl
  | cons kv rest ih =>
      simp only [List.map_cons, List.mem_cons, not_or] at h
      rw [mapGet_cons, if_neg (Ne.symm h.1)]
      exact ih h.2

theorem mapGet_mapDelete_ne (k k' : String) (hk : k' ≠ k) (s : Store) :
    mapGet k' (mapDelete k s) = mapGet k' s := by
  induction s with
  | nil => rfl
  | cons kv rest ih =>
      rw [mapDelete_cons]
      by_cases h : kv.1 = k
      · rw [if_pos h, mapGet_cons, if_neg]
        rw [h]; exact Ne.symm hk
      · rw [if_neg h, mapGet_cons, mapGet_cons]
        by_cases h' : kv.1 = k'
        · simp [h']
        · rw [if_neg h', if_neg h']
          exact ih

theorem mapGet_mapDelete_self (k : String) (s : Store)
    (hs : (s.map Prod.fst).Nodup) : mapGet k (mapDelete k s) = none := by
  induction s with
  | nil => rfl
  | cons kv rest ih =>
      simp only [List.map_cons, List.nodup_cons] at hs
      rw [mapDelete_cons]
      by_cases h : kv.1 = k
      · rw [if_pos h]
        rw [← h]
        exact mapGet_eq_none_of_not_mem_keys _ _ hs.1
      · rw [if_neg h, mapGet_cons, if_neg h]
        exact ih hs.2

theorem mapDelete_of_absent (k : String) (s : Store)
    (h : mapGet k s = none) : mapDelete k s = s := by
  refine List.eraseP_of_forall_not ?_
  intro kv hkv
  have h' := (Option.map_eq_none'.mp h)
  have := List.find?_eq_none.mp h' kv hkv
  simpa using this

/-! ### Stability and sortedness of the ranking query -/

theorem filter_orderedInsert (x : String × EndpointStats)
    (l : List (String × EndpointStats)) (n : Nat) :
    (List.orderedInsert byCountDesc x l).filter (fun kv => kv.2.count == n)
      = if x.2.count = n
        then x :: l.filter (fun kv => kv.2.count == n)
        else l.filter (fun kv => kv.2.count == n) := by
  induction l with
  | nil =>
      by_cases h : x.2.count = n
      · simp [List.orderedInsert, List.filter, h]
      · have hb : (x.2.count == n) = false := beq_eq_false_iff_ne.mpr h
        simp [List.orderedInsert, List.filter, hb, h]
  | cons y ys ih =>
      by_cases hxy : byCountDesc x y
      · rw [List.orderedInsert, if_pos hxy]
        by_cases h : x.2.count = n <;>
          simp [List.filter_cons, h, beq_eq_false_iff_ne]
      · rw [List.orderedInsert, if_neg hxy]
        have hlt : x.2.count < y.2.count := Nat.lt_of_not_le hxy
        by_cases h : x.2.count = n
        · have hy : (y.2.count == n) = false := by
            simp only [beq_eq_false_iff_ne]
            omega
          rw [if_pos h, List.filter_cons, hy, List.filter_cons, hy, ih, if_pos h]
          simp
        · rw [if_neg h, List.filter_cons, List.filter_cons, ih, if_neg h]

theorem filter_insertionSort (l : List (String × EndpointStats)) (n : Nat) :
    (List.insertionSort byCountDesc l).filter (fun kv => kv.2.count == n)
      = l.filter (fun kv => kv.2.count == n) := by
  induction l with
  | nil => rfl
  | cons x xs ih =>
      rw [List.insertionSort, filter_orderedInsert, List.filter_cons]
      by_cases h : x.2.count = n
      · have hb : (x.2.count == n) = true := by simpa using h
        rw [if_pos h, hb, ih]
        simp
      · have hb : (x.2.count == n) = false := by simpa using h
        rw [if_neg h, hb, ih]
        simp

theorem jsSlice_eq_take (limit : Int) (l : List α) :
    jsSlice limit l
      = l.take (if limit < 0 then ((l.length : Int) + limit).toNat
                else limit.toNat) := by
  unfold jsSlice
  split <;> simp_all

/-! ### Claim theorems (queries and reset) -/

/-- C7 counterexample: the claim says every `limit ≤ 0` yields the empty
sequence, but JS `slice(0, -1)` on a two-entry store keeps one entry. -/
theorem getTopEndpoints_neg_limit_not_empty :
    getTopEndpoints
        [("/a", ⟨2, 20, 10, ((10 : ℚ) : WithTop ℚ), 10, 0, "GET", "/a"⟩),
         ("/b", ⟨1, 10, 10, ((10 : ℚ) : WithTop ℚ), 10, 0, "GET", "/b"⟩)]
        (-1)
      = [("/a", ⟨2, 20, 10, ((10 : ℚ) : WithTop ℚ), 10, 0, "GET", "/a"⟩)]
    ∧ getTopEndpoints
        [("/a", ⟨2, 20, 10, ((10 : ℚ) : WithTop ℚ), 10, 0, "GET", "/a"⟩),
         ("/b", ⟨1, 10, 10, ((10 : ℚ) : WithTop ℚ), 10, 0, "GET", "/b"⟩)]
        (-1) ≠ [] := by
  constructor
  · decide
  · decide

/-- C7 (amended): `getTopEndpoints` returns the entries stably sorted in
descending `count` order and truncated by JS `slice(0, limit)` semantics:
`limit = 0` yields the empty sequence, `limit ≥ size` yields the full
sorted sequence, and a negative `limit` drops `|limit|` entries from the
end (not always empty). -/
theorem getTopEndpoints_sorted_stable_truncated (s : Store) (limit : Int) :
    List.Sorted byCountDesc (getTopEndpoints s limit)
    ∧ getTopEndpoints s limit
        = (List.insertionSort byCountDesc s).take
            (if limit < 0 then ((s.length : Int) + limit).toNat
             else limit.toNat)
    ∧ (List.insertionSort byCountDesc s).Perm s
    ∧ (∀ n : Nat,
        (List.insertionSort byCountDesc s).filter (fun kv => kv.2.count == n)
          = s.filter (fun kv => kv.2.count == n))
    ∧ (limit = 0 → getTopEndpoints s limit = [])
    ∧ ((s.length : Int) ≤ limit →
        getTopEndpoints s limit = List.insertionSort byCountDesc s) := by
  have hlen : (List.insertionSort byCountDesc s).length = s.length :=
    (List.perm_insertionSort byCountDesc s).length_eq
  have htake : getTopEndpoints s limit
      = (List.insertionSort byCountDesc s).take
          (if limit < 0 then ((s.length : Int) + limit).toNat
           else limit.toNat) := by
    rw [getTopEndpoints, jsSlice_eq_take, hlen]
  refine ⟨?_, htake, List.perm_insertionSort byCountDesc s,
    filter_insertionSort s, ?_, ?_⟩
  · rw [htake]
    exact (List.sorted_insertionSort byCountDesc s).sublist
      (List.take_sublist _ _)
  · intro h
    subst h
    simp [htake]
  · intro h
    rw [htake, if_neg (by omega)]
    refine List.take_of_length_le ?_
    rw [hlen]
    omega

/-- C8: `getSummary` guards the average against division by zero
(`averageDuration = totalDuration / totalRequests` when `totalRequests > 0`,
else `0`), and on the empty store returns all-zero aggregates with
`topEndpoint` and `slowestEndpoint` absent. -/
theorem getSummary_average_guard_and_empty :
    (∀ s : Store,
      ((getSummary s).totalRequests = 0 → (getSummary s).averageDuration = 0)
      ∧ (0 < (getSummary s).totalRequests →
          (getSummary s).averageDuration * ((getSummary s).totalRequests : ℚ)
            = (getSummary s).totalDuration)) ∧
    getSummary [] = ⟨0, 0, 0, 0, none, none⟩ := by
  refine ⟨fun s => ⟨?_, ?_⟩, by decide⟩
  · intro h
    simp only [getSummary] at h ⊢
    rw [if_neg (by omega)]
  · intro h
    simp only [getSummary] at h ⊢
    rw [if_pos h]
    exact div_mul_cancel₀ _ (by exact_mod_cast Nat.pos_iff_ne_zero.mp h)

/-- C9 counterexample: `reset("")` does not remove only the entry stored
under the empty-string key; JS truthiness sends it to the clear-all branch,
so it also removes the unrelated key "/a". -/
theorem reset_empty_string_clears_store :
    mapGet "/a" (reset (runTrace 10 [⟨0, "GET", "/a", 100⟩, ⟨1, "GET", "", 5⟩])
        (some "")) = none
    ∧ mapGet "/a" (runTrace 10 [⟨0, "GET", "/a", 100⟩, ⟨1, "GET", "", 5⟩])
        ≠ none
    ∧ mapGet "" (runTrace 10 [⟨0, "GET", "/a", 100⟩, ⟨1, "GET", "", 5⟩])
        ≠ none := by
  refine ⟨rfl, by decide, by decide⟩

/-- C9 (amended): for every non-empty key `k`, `reset(k)` removes exactly
`k`'s entry and leaves every other entry unchanged; `reset()` — and also
`reset("")`, which JS truthiness routes to the same branch — empties the
whole store; both forms are idempotent. -/
theorem reset_spec (s : Store) (hs : (s.map Prod.fst).Nodup) (k : String)
    (hk : k ≠ "") :
    mapGet k (reset s (some k)) = none
    ∧ (∀ k', k' ≠ k → mapGet k' (reset s (some k)) = mapGet k' s)
    ∧ reset s none = []
    ∧ reset s (some "") = []
    ∧ reset (reset s (some k)) (some k) = reset s (some k)
    ∧ reset (reset s none) none = reset s none := by
  refine ⟨?_, ?_, rfl, rfl, ?_, rfl⟩
  · simp only [reset, if_neg hk]
    exact mapGet_mapDelete_self k s hs
  · intro k' hk'
    simp only [reset, if_neg hk]
    exact mapGet_mapDelete_ne k k' hk' s
  · simp only [reset, if_neg hk]
    exact mapDelete_of_absent _ _ (mapGet_mapDelete_self k s hs)

/-- Witness for the C9 theorem at a concrete two-entry store and key. -/
theorem reset_spec_witness :
    mapGet "/a" (reset [("/a", ⟨1, 100, 100, ((100 : ℚ) : WithTop ℚ), 100, 0, "GET", "/a"⟩),
                        ("/b", ⟨1, 5, 5, ((5 : ℚ) : WithTop ℚ), 5, 1, "GET", "/b"⟩)] (some "/a")) = none
    ∧ (∀ k', k' ≠ "/a" →
        mapGet k' (reset [("/a", ⟨1, 100, 100, ((100 : ℚ) : WithTop ℚ), 100, 0, "GET", "/a"⟩),
                          ("/b", ⟨1, 5, 5, ((5 : ℚ) : WithTop ℚ), 5, 1, "GET", "/b"⟩)] (some "/a"))
          = mapGet k' [("/a", ⟨1, 100, 100, ((100 : ℚ) : WithTop ℚ), 100, 0, "GET", "/a"⟩),
                       ("/b", ⟨1, 5, 5, ((5 : ℚ) : WithTop ℚ), 5, 1, "GET", "/b"⟩)])
    ∧ reset [("/a", ⟨1, 100, 100, ((100 : ℚ) : WithTop ℚ), 100, 0, "GET", "/a"⟩),
             ("/b", ⟨1, 5, 5, ((5 : ℚ) : WithTop ℚ), 5, 1, "GET", "/b"⟩)] none = []
    ∧ reset [("/a", ⟨1, 100, 100, ((100 : ℚ) : WithTop ℚ), 100, 0, "GET", "/a"⟩),
             ("/b", ⟨1, 5, 5, ((5 : ℚ) : WithTop ℚ), 5, 1, "GET", "/b"⟩)] (some "") = []
    ∧ reset (reset [("/a", ⟨1, 100, 100, ((100 : ℚ) : WithTop ℚ), 100, 0, "GET", "/a"⟩),
                    ("/b", ⟨1, 5, 5, ((5 : ℚ) : WithTop ℚ), 5, 1, "GET", "/b"⟩)] (some "/a")) (some "/a")
        = reset [("/a", ⟨1, 100, 100, ((100 : ℚ) : WithTop ℚ), 100, 0, "GET", "/a"⟩),
                 ("/b", ⟨1, 5, 5, ((5 : ℚ) : WithTop ℚ), 5, 1, "GET", "/b"⟩)] (some "/a")
    ∧ reset (reset [("/a", ⟨1, 100, 100, ((100 : ℚ) : WithTop ℚ), 100, 0, "GET", "/a"⟩),
                    ("/b", ⟨1, 5, 5, ((5 : ℚ) : WithTop ℚ), 5, 1, "GET", "/b"⟩)] none) none
        = reset [("/a", ⟨1, 100, 100, ((100 : ℚ) : WithTop ℚ), 100, 0, "GET", "/a"⟩),
                 ("/b", ⟨1, 5, 5, ((5 : ℚ) : WithTop ℚ), 5, 1, "GET", "/b"⟩)] none :=
  reset_spec _ (by decide) "/a" (by decide)

/-- C10: `getStats("")` is routed by JS truthiness to the no-argument
overload, so it returns the full key-to-entry mapping rather than the entry
stored under the empty-string key — even when `record` has created such an
entry. -/
theorem getStats_empty_string_returns_full_map :
    (∀ s : Store, getStats s (some "") = Sum.inr s)
    ∧ mapGet "" (runTrace 1000 [⟨0, "GET", "", 5⟩]) ≠ none
    ∧ getStats (runTrace 1000 [⟨0, "GET", "", 5⟩]) (some "")
        = Sum.inr (runTrace 1000 [⟨0, "GET", "", 5⟩]) :=
  ⟨fun _ => rfl, by decide, rfl⟩

/-! ### Claim theorems (update path and eviction) -/

/-- C1: evaluating the code at the failing input.  With capacity 2 the
store holds `/a` (older) and `/b`; a `record` call that merely updates the
existing key `/b` still runs `cleanupIfNeeded` first and evicts `/a`, so a
key present before the call is gone afterwards. -/
theorem update_at_capacity_evicts_other_entry :
    mapGet "/b" (runTrace 2 [⟨0, "GET", "/a", 100⟩, ⟨1, "GET", "/b", 100⟩])
      ≠ none
    ∧ mapGet "/a" (runTrace 2 [⟨0, "GET", "/a", 100⟩, ⟨1, "GET", "/b", 100⟩])
      ≠ none
    ∧ mapGet "/a" (runTrace 2 [⟨0, "GET", "/a", 100⟩, ⟨1, "GET", "/b", 100⟩,
        ⟨2, "GET", "/b", 100⟩]) = none := by
  refine ⟨by decide, by decide, by decide⟩

/-- C2: evaluating the code at the failing input.  With capacity 2, three
`record` calls for distinct keys that share one timestamp leave three
entries in the store: `cleanupIfNeeded` initializes `lruTime` to the
current time and compares with strict `<`, so no entry qualifies for
eviction and the insertion exceeds the capacity. -/
theorem size_exceeds_capacity_on_equal_timestamps :
    (runTrace 2 [⟨0, "GET", "/x", 10⟩, ⟨0, "GET", "/y", 10⟩,
        ⟨0, "GET", "/z", 10⟩]).length = 3
    ∧ ¬ (runTrace 2 [⟨0, "GET", "/x", 10⟩, ⟨0, "GET", "/y", 10⟩,
        ⟨0, "GET", "/z", 10⟩]).length ≤ 2 := by
  refine ⟨by decide, by decide⟩

/-- C5: evaluating the code at the failing input.  `incrementCount` does no
validation: a call with an empty key and a negative duration silently
creates an entry under the empty-string key, with `count = 1` and negative
duration aggregates (`totalDuration = averageDuration = minDuration = -50`,
`maxDuration = 0`), instead of rejecting the input. -/
theorem invalid_input_silently_accepted :
    mapGet "" (runTrace 1000 [⟨0, "GET", "", -50⟩])
      = some ⟨1, -50, -50, ((-50 : ℚ) : WithTop ℚ), 0, 0, "GET", ""⟩
    ∧ (runTrace 1000 [⟨0, "GET", "", -50⟩]).length = 1 := by
  constructor
  · simp [runTrace, runFrom, incrementCount, cleanupIfNeeded, mapGet, mapSet,
      List.find?]
  · decide

/-- C3 counterexample: with capacity 1, the key `/a` is recorded, evicted
by the record of `/b`, then recorded again: the second call for `/a` (with
no intervening reset) returns 1, not 2. -/
theorem returned_count_resets_after_eviction :
    recordOutputs 1 [] [⟨0, "GET", "/a", 1⟩, ⟨1, "GET", "/b", 1⟩,
        ⟨2, "GET", "/a", 1⟩] = [1, 1, 1]
    ∧ (recordOutputs 1 [] [⟨0, "GET", "/a", 1⟩, ⟨1, "GET", "/b", 1⟩,
        ⟨2, "GET", "/a", 1⟩])[2]? ≠ some 2 := by
  refine ⟨by decide, by decide⟩

/-- C4 counterexample: capacity 1, the single stored entry has
`lastAccessedAt` equal to the call time.  The store is full and the key is
genuinely new, yet no entry at all is removed (the tied oldest entry is not
evicted: the scan only accepts strictly older timestamps), and the store
grows past capacity. -/
theorem no_eviction_when_timestamps_tied :
    mapGet "/a" (runTrace 1 [⟨5, "GET", "/a", 1⟩, ⟨5, "GET", "/b", 1⟩])
      ≠ none
    ∧ mapGet "/b" (runTrace 1 [⟨5, "GET", "/a", 1⟩, ⟨5, "GET", "/b", 1⟩])
      ≠ none
    ∧ (runTrace 1 [⟨5, "GET", "/a", 1⟩, ⟨5, "GET", "/b", 1⟩]).length = 2 := by
  refine ⟨by decide, by decide, by decide⟩


/-! ### Returned counts below capacity -/

theorem cleanup_of_lt (cap now : Nat) (s : Store) (h : s.length < cap) :
    cleanupIfNeeded cap now s = s := by
  unfold cleanupIfNeeded
  rw [if_neg (by omega)]

theorem length_mapSet_le (k : String) (v : EndpointStats) (s : Store) :
    (mapSet k v s).length ≤ s.length + 1 := by
  induction s with
  | nil => simp [mapSet]
  | cons kv rest ih =>
      rw [mapSet_cons]
      by_cases h : kv.1 = k
      · simp [h]
      · rw [if_neg h]
        simpa using Nat.succ_le_succ ih

theorem incrementCount_snd (cap now : Nat) (m k : String) (d : ℚ) (s : Store)
    (h : s.length < cap) :
    (incrementCount cap now m k d s).2 = countFor k s + 1 := by
  simp only [incrementCount, cleanup_of_lt cap now s h, countFor]
  cases hg : mapGet k s <;> simp [hg]

theorem countFor_incrementCount_self (cap now : Nat) (m k : String) (d : ℚ)
    (s : Store) (h : s.length < cap) :
    countFor k (incrementCount cap now m k d s).1 = countFor k s + 1 := by
  simp only [incrementCount, cleanup_of_lt cap now s h, countFor]
  rw [mapGet_mapSet_self]
  cases hg : mapGet k s <;> simp [hg]

theorem countFor_incrementCount_ne (cap now : Nat) (m k k' : String) (d : ℚ)
    (s : Store) (h : s.length < cap) (hk : k' ≠ k) :
    countFor k' (incrementCount cap now m k d s).1 = countFor k' s := by
  simp only [incrementCount, cleanup_of_lt cap now s h, countFor]
  rw [mapGet_mapSet_ne k k' hk]

theorem length_incrementCount_le (cap now : Nat) (m k : String) (d : ℚ)
    (s : Store) (h : s.length < cap) :
    ((incrementCount cap now m k d s).1).length ≤ s.length + 1 := by
  simp only [incrementCount, cleanup_of_lt cap now s h]
  exact length_mapSet_le k _ s

theorem recordOutputs_eq_spec (cap : Nat) :
    ∀ (tr : List Obs) (s : Store), s.length + tr.length ≤ cap →
      recordOutputs cap s tr = specOutputs (fun k => countFor k s) tr := by
  intro tr
  induction tr with
  | nil => intro s _; rfl
  | cons c rest ih =>
      intro s h
      have hlt : s.length < cap := by
        simp only [List.length_cons] at h
        omega
      have h2 : ((incrementCount cap c.now c.method c.pathname c.duration s).1).length
          + rest.length ≤ cap := by
        have := length_incrementCount_le cap c.now c.method c.pathname c.duration s hlt
        simp only [List.length_cons] at h
        omega
      simp only [recordOutputs, specOutputs]
      congr 1
      · exact incrementCount_snd cap c.now c.method c.pathname c.duration s hlt
      · rw [ih _ h2]
        congr 1
        funext k
        by_cases hk : k = c.pathname
        · subst hk
          rw [countFor_incrementCount_self cap c.now c.method c.pathname c.duration s hlt,
            if_pos rfl]
        · rw [countFor_incrementCount_ne cap c.now c.method c.pathname k c.duration s hlt hk,
            if_neg hk]

theorem specOutputs_getElem (counts : String → Nat) (tr : List Obs) (i : Nat)
    (hi : i < tr.length) :
    (specOutputs counts tr)[i]?
      = some (counts tr[i].pathname
          + ((tr.take i).filter
              (fun c => c.pathname == tr[i].pathname)).length + 1) := by
  induction tr generalizing counts i with
  | nil => simp at hi
  | cons c rest ih =>
      cases i with
      | zero => simp [specOutputs]
      | succ i' =>
          have hi' : i' < rest.length := by
            simpa using Nat.lt_of_succ_lt_succ hi
          have hget : (c :: rest)[i' + 1] = rest[i'] := by
            simp
          simp only [specOutputs, List.getElem?_cons_succ, hget,
            List.take_succ_cons, List.filter_cons]
          rw [ih _ i' hi']
          by_cases hkey : rest[i'].pathname = c.pathname
          · simp [hkey]
            omega
          · have hb : (c.pathname == rest[i'].pathname) = false :=
              beq_eq_false_iff_ne.mpr (fun e => hkey e.symm)
            simp only [hb, if_neg hkey, Bool.false_eq_true, if_false]

/-- C3 (amended): as long as no eviction can interfere — here: the whole
trace has at most `capacity` many calls, so the store never reaches
capacity before a call — the value returned by each `record` call is
1 + (number of earlier calls with the same key): per key, the returned
counts are exactly 1, 2, 3, … -/
theorem returned_counts_below_capacity (cap : Nat) (tr : List Obs)
    (h : tr.length ≤ cap) (i : Nat) (hi : i < tr.length) :
    (recordOutputs cap [] tr)[i]?
      = some (((tr.take i).filter
          (fun c => c.pathname == tr[i].pathname)).length + 1) := by
  rw [recordOutputs_eq_spec cap tr [] (by simpa using h),
    specOutputs_getElem _ tr i hi]
  simp [countFor, mapGet]

/-- Witness for the C3 theorem: two calls for `/a` under capacity 3; the
second call returns 2. -/
theorem returned_counts_below_capacity_witness :
    (recordOutputs 3 [] [⟨0, "GET", "/a", 5⟩, ⟨1, "GET", "/a", 7⟩])[1]?
      = some 2 := by
  have h := returned_counts_below_capacity 3
      [⟨0, "GET", "/a", 5⟩, ⟨1, "GET", "/a", 7⟩] (by decide) 1 (by decide)
  exact h.trans (by decide)

/-! ### The min/average/max invariant -/

theorem mem_mapSet (k : String) (v : EndpointStats) (s : Store)
    (kv : String × EndpointStats) (h : kv ∈ mapSet k v s) :
    kv = (k, v) ∨ kv ∈ s := by
  induction s with
  | nil => simpa [mapSet] using h
  | cons kv' rest ih =>
      rw [mapSet_cons] at h
      by_cases hk : kv'.1 = k
      · rw [if_pos hk] at h
        rcases List.mem_cons.mp h with he | hm
        · exact Or.inl he
        · exact Or.inr (List.mem_cons_of_mem _ hm)
      · rw [if_neg hk] at h
        rcases List.mem_cons.mp h with he | hm
        · exact Or.inr (he ▸ List.mem_cons_self _ _)
        · rcases ih hm with he' | hm'
          · exact Or.inl he'
          · exact Or.inr (List.mem_cons_of_mem _ hm')

theorem mem_cleanup (cap now : Nat) (s : Store) (kv : String × EndpointStats)
    (h : kv ∈ cleanupIfNeeded cap now s) : kv ∈ s := by
  unfold cleanupIfNeeded at h
  by_cases hc : cap ≤ s.length
  · rw [if_pos hc] at h
    cases hm : (s.foldl lruScanStep (none, now)).1 with
    | none => rwa [hm] at h
    | some k =>
        simp only [hm] at h
        by_cases hk : k = ""
        · rwa [if_pos hk] at h
        · rw [if_neg hk] at h
          exact (List.eraseP_sublist s).subset h
  · rwa [if_neg hc] at h

theorem mapGet_mem (k : String) (s : Store) (e : EndpointStats)
    (h : mapGet k s = some e) : ∃ k', (k', e) ∈ s := by
  unfold mapGet at h
  cases hf : s.find? (fun kv => kv.1 == k) with
  | none => rw [hf] at h; simp at h
  | some kv =>
      rw [hf] at h
      simp only [Option.map_some', Option.some.injEq] at h
      refine ⟨kv.1, ?_⟩
      rw [← h, Prod.mk.eta]
      exact List.mem_of_find?_eq_some hf

theorem entryInv_bounds (e : EndpointStats) (h : EntryInv e) :
    e.minDuration ≤ ((e.averageDuration : ℚ) : WithTop ℚ)
    ∧ e.averageDuration ≤ e.maxDuration := by
  obtain ⟨hc, havg, ⟨m, hm, hmle⟩, hmax⟩ := h
  have hc' : (0 : ℚ) < (e.count : ℚ) := by exact_mod_cast hc
  constructor
  · rw [hm, havg]
    exact WithTop.coe_le_coe.mpr ((le_div_iff₀ hc').mpr hmle)
  · rw [havg]
    exact (div_le_iff₀ hc').mpr hmax

theorem entryInv_update (cur : EndpointStats) (d : ℚ) (now : Nat)
    (hcur : EntryInv cur
      ∨ (cur.count = 0 ∧ cur.totalDuration = 0 ∧ cur.minDuration = ⊤
          ∧ cur.maxDuration = 0)) :
    EntryInv
      { count := cur.count + 1
        totalDuration := cur.totalDuration + d
        averageDuration := (cur.totalDuration + d) / ((cur.count : ℚ) + 1)
        minDuration := min cur.minDuration (d : WithTop ℚ)
        maxDuration := max cur.maxDuration d
        lastAccessedAt := now
        method := cur.method
        path := cur.path } := by
  rcases hcur with ⟨hc, _, ⟨m0, hm0, hle0⟩, hmax0⟩ | ⟨hc0, ht0, hm0, hmax0⟩
  · refine ⟨Nat.succ_pos _, by push_cast; ring_nf, ⟨min m0 d, ?_, ?_⟩, ?_⟩
    · rw [hm0, ← WithTop.coe_min]
    · push_cast
      have h1 : min m0 d * (cur.count : ℚ) ≤ m0 * (cur.count : ℚ) :=
        mul_le_mul_of_nonneg_right (min_le_left _ _) (by positivity)
      have h2 : min m0 d ≤ d := min_le_right _ _
      calc min m0 d * ((cur.count : ℚ) + 1)
          = min m0 d * (cur.count : ℚ) + min m0 d := by ring
        _ ≤ m0 * (cur.count : ℚ) + d := add_le_add h1 h2
        _ ≤ cur.totalDuration + d := add_le_add_right hle0 d
    · push_cast
      have h1 : cur.maxDuration * (cur.count : ℚ)
          ≤ max cur.maxDuration d * (cur.count : ℚ) :=
        mul_le_mul_of_nonneg_right (le_max_left _ _) (by positivity)
      calc cur.totalDuration + d
          ≤ cur.maxDuration * (cur.count : ℚ) + d := add_le_add_right hmax0 d
        _ ≤ max cur.maxDuration d * (cur.count : ℚ) + max cur.maxDuration d :=
            add_le_add h1 (le_max_right _ _)
        _ = max cur.maxDuration d * ((cur.count : ℚ) + 1) := by ring
  · refine ⟨Nat.succ_pos _, by push_cast; ring_nf, ⟨d, ?_, ?_⟩, ?_⟩
    · show min cur.minDuration (d : WithTop ℚ) = ((d : ℚ) : WithTop ℚ)
      rw [hm0]
      exact min_eq_right le_top
    · show d * (((cur.count + 1 : Nat)) : ℚ) ≤ cur.totalDuration + d
      rw [ht0, hc0]
      push_cast
      simp
    · show cur.totalDuration + d
        ≤ max cur.maxDuration d * (((cur.count + 1 : Nat)) : ℚ)
      rw [ht0, hc0]
      push_cast
      simp [le_max_right]

theorem storeInv_incrementCount (cap now : Nat) (m k : String) (d : ℚ)
    (s : Store) (h : StoreInv s) :
    StoreInv ((incrementCount cap now m k d s).1) := by
  have h1 : StoreInv (cleanupIfNeeded cap now s) :=
    fun kv hkv => h kv (mem_cleanup cap now s kv hkv)
  intro kv hkv
  simp only [incrementCount] at hkv
  rcases mem_mapSet _ _ _ _ hkv with heq | hmem
  · rw [heq]
    cases hg : mapGet k (cleanupIfNeeded cap now s) with
    | none =>
        simp only [Option.getD_none]
        exact entryInv_update
          { count := 0, totalDuration := 0, averageDuration := 0,
            minDuration := ⊤, maxDuration := 0, lastAccessedAt := now,
            method := m, path := k }
          d now (Or.inr ⟨rfl, rfl, rfl, rfl⟩)
    | some e =>
        simp only [Option.getD_some]
        obtain ⟨k', hk'⟩ := mapGet_mem k _ e hg
        exact entryInv_update e d now (Or.inl (h1 (k', e) hk'))
  · exact h1 kv hmem

theorem storeInv_runFrom (cap : Nat) (tr : List Obs) :
    ∀ s : Store, StoreInv s → StoreInv (runFrom cap s tr) := by
  induction tr with
  | nil => intro s h; exact h
  | cons c rest ih =>
      intro s h
      simp only [runFrom, List.foldl_cons]
      exact ih _ (storeInv_incrementCount cap c.now c.method c.pathname c.duration s h)

/-- C6: after any sequence of `record` calls with non-negative durations,
every entry in the store satisfies
`minDuration ≤ averageDuration ≤ maxDuration`. -/
theorem min_le_average_le_max (cap : Nat) (tr : List Obs)
    (_hd : ∀ c ∈ tr, 0 ≤ c.duration) :
    ∀ kv ∈ runTrace cap tr,
      kv.2.minDuration ≤ ((kv.2.averageDuration : ℚ) : WithTop ℚ)
      ∧ kv.2.averageDuration ≤ kv.2.maxDuration := by
  intro kv hkv
  refine entryInv_bounds _ ?_
  exact storeInv_runFrom cap tr [] (fun _ hx => absurd hx (List.not_mem_nil _)) kv hkv

/-- Witness for the C6 theorem: the two-observation scenario on `/a`
(durations 100 and 200, both non-negative). -/
theorem min_le_average_le_max_witness :
    (∀ c ∈ ([⟨0, "GET", "/a", 100⟩, ⟨1, "GET", "/a", 200⟩] : List Obs),
      0 ≤ c.duration)
    ∧ ∀ kv ∈ runTrace 5 [⟨0, "GET", "/a", 100⟩, ⟨1, "GET", "/a", 200⟩],
        kv.2.minDuration ≤ ((kv.2.averageDuration : ℚ) : WithTop ℚ)
        ∧ kv.2.averageDuration ≤ kv.2.maxDuration :=
  ⟨by decide, min_le_average_le_max 5 _ (by decide)⟩

/-! ### Characterization of the LRU scan -/

theorem lruScan_characterization (s : Store) :
    ∀ acc : Option String × Nat,
      (s.foldl lruScanStep acc = acc ∧ ∀ kv ∈ s, acc.2 ≤ kv.2.lastAccessedAt)
      ∨ (∃ i, ∃ hi : i < s.length,
          (s.foldl lruScanStep acc).1 = some s[i].1
          ∧ (s.foldl lruScanStep acc).2 = s[i].2.lastAccessedAt
          ∧ (s.foldl lruScanStep acc).2 < acc.2
          ∧ (∀ kv ∈ s, (s.foldl lruScanStep acc).2 ≤ kv.2.lastAccessedAt)
          ∧ (∀ j, ∀ hj : j < s.length, j < i →
              (s.foldl lruScanStep acc).2 < s[j].2.lastAccessedAt)) := by
  induction s with
  | nil =>
      intro acc
      left
      exact ⟨rfl, by simp⟩
  | cons kv rest ih =>
      intro acc
      rw [List.foldl_cons]
      by_cases hstep : kv.2.lastAccessedAt < acc.2
      · have hacc : lruScanStep acc kv = (some kv.1, kv.2.lastAccessedAt) := by
          simp [lruScanStep, hstep]
        rw [hacc]
        rcases ih (some kv.1, kv.2.lastAccessedAt) with ⟨heq, hall⟩ |
          ⟨i, hi, h1, h2, h3, h4, h5⟩
        · right
          refine ⟨0, by simp, by simp [heq], by simp [heq], ?_, ?_, ?_⟩
          · rw [heq]
            exact hstep
          · intro kv' hkv'
            rw [heq]
            rcases List.mem_cons.mp hkv' with he | hm
            · rw [he]
            · exact hall kv' hm
          · intro j hj hj0
            omega
        · right
          refine ⟨i + 1, by simpa using Nat.succ_lt_succ hi, ?_, ?_, ?_, ?_, ?_⟩
          · simpa using h1
          · simpa using h2
          · exact lt_trans h3 hstep
          · intro kv' hkv'
            rcases List.mem_cons.mp hkv' with he | hm
            · rw [he]
              exact le_of_lt h3
            · exact h4 kv' hm
          · intro j hj hji
            cases j with
            | zero =>
                simpa using h3
            | succ j' =>
                have hj' : j' < rest.length := by simpa using hj
                have hji' : j' < i := Nat.lt_of_succ_lt_succ hji
                simpa using h5 j' hj' hji'
      · have hacc : lruScanStep acc kv = acc := by
          simp [lruScanStep, hstep]
        rw [hacc]
        have hge : acc.2 ≤ kv.2.lastAccessedAt := Nat.le_of_not_lt hstep
        rcases ih acc with ⟨heq, hall⟩ | ⟨i, hi, h1, h2, h3, h4, h5⟩
        · left
          refine ⟨heq, ?_⟩
          intro kv' hkv'
          rcases List.mem_cons.mp hkv' with he | hm
          · rw [he]
            exact hge
          · exact hall kv' hm
        · right
          refine ⟨i + 1, by simpa using Nat.succ_lt_succ hi, ?_, ?_, h3, ?_, ?_⟩
          · simpa using h1
          · simpa using h2
          · intro kv' hkv'
            rcases List.mem_cons.mp hkv' with he | hm
            · rw [he]
              exact le_of_lt (lt_of_lt_of_le h3 hge)
            · exact h4 kv' hm
          · intro j hj hji
            cases j with
            | zero =>
                simpa using lt_of_lt_of_le h3 hge
            | succ j' =>
                have hj' : j' < rest.length := by simpa using hj
                have hji' : j' < i := Nat.lt_of_succ_lt_succ hji
                simpa using h5 j' hj' hji'

theorem not_mem_keys_of_mapGet_eq_none (k : String) (s : Store)
    (h : mapGet k s = none) : k ∉ s.map Prod.fst := by
  intro hmem
  rcases List.mem_map.mp hmem with ⟨kv, hkv, hkey⟩
  have h' := List.find?_eq_none.mp (Option.map_eq_none'.mp h) kv hkv
  simp [hkey] at h'

theorem cleanupIfNeeded_removes_lru (cap now : Nat) (s : Store)
    (h0 : "" ∉ s.map Prod.fst)
    (h1 : cap ≤ s.length) (h3 : ∃ kv ∈ s, kv.2.lastAccessedAt < now) :
    ∃ i, ∃ hi : i < s.length,
      cleanupIfNeeded cap now s = mapDelete s[i].1 s
      ∧ (∀ kv ∈ s, s[i].2.lastAccessedAt ≤ kv.2.lastAccessedAt)
      ∧ (∀ j, ∀ hj : j < s.length, j < i →
          s[i].2.lastAccessedAt < s[j].2.lastAccessedAt) := by
  rcases lruScan_characterization s (none, now) with ⟨_, hall⟩ |
    ⟨i, hi, h1', h2', _, h4', h5'⟩
  · exfalso
    obtain ⟨kv, hkvmem, hkvlt⟩ := h3
    have := hall kv hkvmem
    omega
  · refine ⟨i, hi, ?_, ?_, ?_⟩
    · have hne : s[i].1 ≠ "" := by
        intro he
        exact h0 (List.mem_map.mpr ⟨s[i], List.getElem_mem hi, he⟩)
      unfold cleanupIfNeeded
      rw [if_pos h1]
      simp only [h1']
      rw [if_neg hne]
    · intro kv hkv
      have := h4' kv hkv
      rwa [h2'] at this
    · intro j hj hji
      have := h5' j hj hji
      rwa [h2'] at this

/-- C4 (amended): when the store is full and `record` arrives with a
genuinely new key, *and* some entry is strictly older than the call's
current time, *and* no entry is stored under the empty-string key (the
`if (lruKey)` truthiness guard skips deletion when the scan's winner is
the empty-string key), the entry that gets removed is the first one in
scan order among those with the globally smallest `lastAccessedAt` (no
entry with a strictly larger `lastAccessedAt` is removed), and it stays
absent from the store produced by the full `record` call.  (When no entry
is strictly older than the current time, nothing is removed at all — see
the counterexample.) -/
theorem eviction_removes_first_lru_entry (cap now : Nat) (method key : String)
    (d : ℚ) (s : Store) (hs : (s.map Prod.fst).Nodup)
    (h0 : "" ∉ s.map Prod.fst)
    (h1 : cap ≤ s.length) (h2 : mapGet key s = none)
    (h3 : ∃ kv ∈ s, kv.2.lastAccessedAt < now) :
    ∃ i, ∃ hi : i < s.length,
      cleanupIfNeeded cap now s = mapDelete s[i].1 s
      ∧ (∀ kv ∈ s, s[i].2.lastAccessedAt ≤ kv.2.lastAccessedAt)
      ∧ (∀ j, ∀ hj : j < s.length, j < i →
          s[i].2.lastAccessedAt < s[j].2.lastAccessedAt)
      ∧ mapGet s[i].1 ((incrementCount cap now method key d s).1) = none := by
  obtain ⟨i, hi, hc, hmin, hfirst⟩ := cleanupIfNeeded_removes_lru cap now s h0 h1 h3
  refine ⟨i, hi, hc, hmin, hfirst, ?_⟩
  have hkeys := not_mem_keys_of_mapGet_eq_none key s h2
  have hne : s[i].1 ≠ key := by
    intro he
    refine hkeys ?_
    rw [← he]
    exact List.mem_map.mpr ⟨s[i], List.getElem_mem hi, rfl⟩
  simp only [incrementCount]
  rw [mapGet_mapSet_ne key s[i].1 hne, hc, mapGet_mapDelete_self _ _ hs]

/-- Witness for the C4 theorem: capacity 2, a full store whose entry `/a`
(time 0) is older than `/b` (time 5), and a new key `/c` arriving at time 9. -/
theorem eviction_removes_first_lru_entry_witness :
    ∃ i, ∃ hi : i < ([("/a", ⟨1, 1, 1, ((1 : ℚ) : WithTop ℚ), 1, 0, "GET", "/a"⟩),
        ("/b", ⟨1, 1, 1, ((1 : ℚ) : WithTop ℚ), 1, 5, "GET", "/b"⟩)] : Store).length,
      cleanupIfNeeded 2 9 [("/a", ⟨1, 1, 1, ((1 : ℚ) : WithTop ℚ), 1, 0, "GET", "/a"⟩),
          ("/b", ⟨1, 1, 1, ((1 : ℚ) : WithTop ℚ), 1, 5, "GET", "/b"⟩)]
        = mapDelete ([("/a", ⟨1, 1, 1, ((1 : ℚ) : WithTop ℚ), 1, 0, "GET", "/a"⟩),
            ("/b", ⟨1, 1, 1, ((1 : ℚ) : WithTop ℚ), 1, 5, "GET", "/b"⟩)] : Store)[i].1
            [("/a", ⟨1, 1, 1, ((1 : ℚ) : WithTop ℚ), 1, 0, "GET", "/a"⟩),
             ("/b", ⟨1, 1, 1, ((1 : ℚ) : WithTop ℚ), 1, 5, "GET", "/b"⟩)]
      ∧ (∀ kv ∈ ([("/a", ⟨1, 1, 1, ((1 : ℚ) : WithTop ℚ), 1, 0, "GET", "/a"⟩),
            ("/b", ⟨1, 1, 1, ((1 : ℚ) : WithTop ℚ), 1, 5, "GET", "/b"⟩)] : Store),
          ([("/a", ⟨1, 1, 1, ((1 : ℚ) : WithTop ℚ), 1, 0, "GET", "/a"⟩),
            ("/b", ⟨1, 1, 1, ((1 : ℚ) : WithTop ℚ), 1, 5, "GET", "/b"⟩)] : Store)[i].2.lastAccessedAt
            ≤ kv.2.lastAccessedAt)
      ∧ (∀ j, ∀ hj : j < ([("/a", ⟨1, 1, 1, ((1 : ℚ) : WithTop ℚ), 1, 0, "GET", "/a"⟩),
            ("/b", ⟨1, 1, 1, ((1 : ℚ) : WithTop ℚ), 1, 5, "GET", "/b"⟩)] : Store).length, j < i →
          ([("/a", ⟨1, 1, 1, ((1 : ℚ) : WithTop ℚ), 1, 0, "GET", "/a"⟩),
            ("/b", ⟨1, 1, 1, ((1 : ℚ) : WithTop ℚ), 1, 5, "GET", "/b"⟩)] : Store)[i].2.lastAccessedAt
            < ([("/a", ⟨1, 1, 1, ((1 : ℚ) : WithTop ℚ), 1, 0, "GET", "/a"⟩),
               ("/b", ⟨1, 1, 1, ((1 : ℚ) : WithTop ℚ), 1, 5, "GET", "/b"⟩)] : Store)[j].2.lastAccessedAt)
      ∧ mapGet ([("/a", ⟨1, 1, 1, ((1 : ℚ) : WithTop ℚ), 1, 0, "GET", "/a"⟩),
          ("/b", ⟨1, 1, 1, ((1 : ℚ) : WithTop ℚ), 1, 5, "GET", "/b"⟩)] : Store)[i].1
          ((incrementCount 2 9 "GET" "/c" 1
            [("/a", ⟨1, 1, 1, ((1 : ℚ) : WithTop ℚ), 1, 0, "GET", "/a"⟩),
             ("/b", ⟨1, 1, 1, ((1 : ℚ) : WithTop ℚ), 1, 5, "GET", "/b"⟩)]).1) = none :=
  eviction_removes_first_lru_entry 2 9 "GET" "/c" 1
    [("/a", ⟨1, 1, 1, ((1 : ℚ) : WithTop ℚ), 1, 0, "GET", "/a"⟩),
     ("/b", ⟨1, 1, 1, ((1 : ℚ) : WithTop ℚ), 1, 5, "GET", "/b"⟩)]
    (by decide) (by decide) (by decide) (by decide) (by decide)

end EndpointCounter
